import Mathlib

/-!
Shallow embedding of the matching / caching core of the Folio web app
(`src/public/js/app.js`), together with proofs about it.

Strings are modelled as `List Char` (a JS string is a sequence of code
units; every string reaching these functions is ordinary text).  JS
numbers that only ever hold exact decimal fractions (the similarity
thresholds and scores) are modelled as rationals, written with
`Rat.divInt` so that all score arithmetic stays kernel-computable.
Browser `sessionStorage` is modelled as a map from keys to optionally
present stored strings; a stored string either parses as a
`{data, expiry}` record or is corrupt (unparseable), which is what the
`try`/`catch` around `JSON.parse` distinguishes.
-/

namespace Folio

/-! ## Client-side response cache (`FolioCache`, app.js lines 10-53) -/

/-- What `sessionStorage` can hold under one key, as seen by
`FolioCache.get`: a serialized `{data, expiry}` record, or a string that
fails to `JSON.parse` (or lacks the expected shape). -/
inductive Stored (α : Type) where
  | entry : α → Nat → Stored α
  | corrupt : Stored α
deriving DecidableEq

/-- The `sessionStorage` contents, keyed abstractly. -/
def Store (α : Type) : Type := Nat → Option (Stored α)

/-- `sessionStorage.setItem` / `removeItem` result on the map. -/
def Store.update {α : Type} (s : Store α) (k : Nat) (v : Option (Stored α)) :
    Store α :=
  fun k2 => if k2 = k then v else s k2

/-- `FolioCache.get(key)` (app.js lines 23-37): read the item; absent
gives `null`; a parse failure is caught and gives `null`; an entry with
`Date.now() > expiry` is removed and gives `null`; otherwise the stored
`data` is returned.  The result pairs the returned payload with the
storage state after the call (eviction happens on an expired read). -/
def cacheGet {α : Type} (s : Store α) (k : Nat) (now : Nat) :
    Option α × Store α :=
  match s k with
  | none => (none, s)
  | some .corrupt => (none, s)
  | some (.entry d e) =>
    if e < now then (none, s.update k none) else (some d, s)

/-- The body of `FolioCache.set` (app.js lines 42-53) before the
`try`/`catch`: `sessionStorage.setItem` stores `{data, expiry: now + ttl}`
but may throw (quota exceeded, storage disabled); `fails` says whether it
throws on this call. -/
def setItemOp {α : Type} (s : Store α) (k : Nat) (v : Stored α)
    (fails : Bool) : Except Unit (Store α) :=
  if fails then .error () else .ok (s.update k (some v))

/-- `FolioCache.set(key, data, ttl)` (app.js lines 42-53): the `catch`
swallows a storage failure, leaving the storage as it was; on success the
entry `{data, expiry: now + ttl}` is written. -/
def cacheSet {α : Type} (s : Store α) (k : Nat) (d : α) (ttl now : Nat)
    (fails : Bool) : Store α :=
  match setItemOp s k (.entry d (now + ttl)) fails with
  | .ok s2 => s2
  | .error _ => s

/-- A concrete one-entry store used to exercise the cache theorems:
key 0 holds payload 7 with `expiry = 100`. -/
def storeWithEntry : Store Nat :=
  fun k => if k = 0 then some (.entry 7 100) else none

/-- A concrete store whose key 0 holds an unparseable string. -/
def storeWithCorrupt : Store Nat :=
  fun k => if k = 0 then some .corrupt else none

/-- C3 counterexample: with the entry's `expiry = 100` and the current
time also `100`, `now < expiresAt` is false, yet `get` still returns the
payload — the claim's strict-inequality validity window does not hold on
the code, which only discards when `now > expiry`. -/
theorem cacheGet_at_expiry_returns_payload :
    (cacheGet storeWithEntry 0 100).1 = some 7 ∧ ¬ (100 < 100) :=
  ⟨rfl, by decide⟩

/-- C3 (amended): `get(k)` returns the stored payload exactly when an
entry exists for `k` and `now ≤ expiresAt`; otherwise it behaves as
absent, and an entry read with `now > expiresAt` is evicted by that
read. -/
theorem cacheGet_valid_iff {α : Type} (s : Store α) (k now : Nat) :
    (∀ d : α, (cacheGet s k now).1 = some d ↔
      ∃ e, s k = some (.entry d e) ∧ now ≤ e) ∧
    (∀ (d : α) (e : Nat), s k = some (.entry d e) → e < now →
      cacheGet s k now = (none, s.update k none)) := by
  constructor
  · intro d
    constructor
    · intro h
      cases hs : s k with
      | none => simp [cacheGet, hs] at h
      | some st =>
        cases st with
        | corrupt => simp [cacheGet, hs] at h
        | entry d2 e =>
          simp only [cacheGet, hs] at h
          by_cases he : e < now
          · rw [if_pos he] at h; simp at h
          · rw [if_neg he] at h
            simp only [Option.some.injEq] at h
            exact ⟨e, by rw [h], Nat.le_of_not_lt he⟩
    · rintro ⟨e, hs, hle⟩
      simp only [cacheGet, hs]
      rw [if_neg (Nat.not_lt.mpr hle)]
  · intro d e hs hlt
    simp only [cacheGet, hs]
    rw [if_pos hlt]

/-- C3 witness: on the concrete store, a read at time 99 (before expiry)
returns the payload, and a read at time 101 (after expiry) returns
absent and evicts the entry. -/
theorem cacheGet_valid_iff_witness :
    (cacheGet storeWithEntry 0 99).1 = some 7 ∧
    cacheGet storeWithEntry 0 101 = (none, storeWithEntry.update 0 none) :=
  ⟨((cacheGet_valid_iff storeWithEntry 0 99).1 7).2 ⟨100, rfl, by decide⟩,
   (cacheGet_valid_iff storeWithEntry 0 101).2 7 100 rfl (by decide)⟩

/-- C9: a `set` whose underlying storage write throws is swallowed — the
function still returns (it is total on the model), the storage is left
exactly as it was, and if the key was absent before, a subsequent `get`
still behaves as a cache miss. -/
theorem cacheSet_failure_swallowed {α : Type} (s : Store α) (k : Nat)
    (d : α) (ttl now now2 : Nat) :
    cacheSet s k d ttl now true = s ∧
    (s k = none → (cacheGet (cacheSet s k d ttl now true) k now2).1 = none) := by
  refine ⟨rfl, ?_⟩
  intro h
  show (cacheGet s k now2).1 = none
  unfold cacheGet
  rw [h]

/-- C9 witness: on the empty store, a failing `set` of payload 7 under
key 0 leaves a subsequent `get` returning absent. -/
theorem cacheSet_failure_swallowed_witness :
    (cacheGet (cacheSet (fun _ => none : Store Nat) 0 7 50 10 true) 0 11).1
      = none :=
  (cacheSet_failure_swallowed (fun _ => none : Store Nat) 0 7 50 10 11).2 rfl

/-- C10: a `get` over a corrupt (unparseable) stored value never
propagates the parse failure: the `catch` turns it into absent, and the
storage is left untouched. -/
theorem cacheGet_corrupt_absent {α : Type} (s : Store α) (k now : Nat)
    (h : s k = some .corrupt) :
    cacheGet s k now = (none, s) := by
  unfold cacheGet
  rw [h]

/-- C10 witness: reading the concrete corrupt store returns absent and
changes nothing. -/
theorem cacheGet_corrupt_absent_witness :
    cacheGet storeWithCorrupt 0 55 = (none, storeWithCorrupt) :=
  cacheGet_corrupt_absent storeWithCorrupt 0 55 rfl

/-! ## Book records -/

/-- A catalog (Hardcover/iTunes) search result as the matching code reads
it: `id`, `title`, `author` (single string). -/
structure CatalogBook where
  id : Nat
  title : List Char
  author : List Char
deriving DecidableEq

/-- The `authors` field of a local library record: the code accepts
either an array of names (`Array.isArray(book.authors)`) or a single
string. -/
inductive AuthorsField where
  | list : List (List Char) → AuthorsField
  | str : List Char → AuthorsField
deriving DecidableEq

/-- A local library record as the matching code reads it. -/
structure LibraryBook where
  id : Nat
  title : List Char
  authors : AuthorsField
deriving DecidableEq

/-- The record built by `matchWithLibrary` (app.js lines 1850-1862):
the catalog book spread together with `inLibrary`, `libraryBookId`
(`libraryMatch?.id`, absent when there is no match) and `requested`. -/
structure AnnotatedBook where
  book : CatalogBook
  inLibrary : Bool
  libraryBookId : Option Nat
  requested : Bool
deriving DecidableEq

/-! ## Merging a new page of search results (C6)

`loadMoreiTunesSearch` (app.js lines 1898-1906) merges a freshly loaded
page into the accumulated results:

    const existingIds = new Set(this.searchiTunesResults.map(b => b.id));
    const newBooks = books.filter(book => !existingIds.has(book.id));
    this.searchiTunesResults = [...this.searchiTunesResults, ...newBooks];

`Set.has` over the ids of the existing list is membership in the mapped
list, so the set is modelled by (decidable) membership in the mapped
ids. -/

/-- The ids of a result list, in order. -/
def resultIds (l : List AnnotatedBook) : List Nat :=
  l.map fun b => b.book.id

/-- The merge step of `loadMoreiTunesSearch`: drop the new-page items
whose id already occurs in the existing list, append the rest. -/
def mergeSearchResults (existing newBooks : List AnnotatedBook) :
    List AnnotatedBook :=
  existing ++ newBooks.filter fun b => !(decide (b.book.id ∈ resultIds existing))

/-- A throwaway annotated book with id 0, used for concrete inputs. -/
def annotatedZero : AnnotatedBook :=
  ⟨⟨0, [], []⟩, false, none, false⟩

/-- C6 counterexample: the existing list `[]` trivially has pairwise
distinct ids, yet merging a page that repeats one id yields a merged
list with a duplicated id — the filter only guards against ids already
in the existing list, not against duplicates inside the new page. -/
theorem mergeSearchResults_dup_page :
    (resultIds ([] : List AnnotatedBook)).Nodup ∧
    ¬ (resultIds (mergeSearchResults [] [annotatedZero, annotatedZero])).Nodup := by
  constructor
  · exact List.nodup_nil
  · decide

/-- C6 (amended): when both the existing list and the new page have
pairwise distinct ids, the merged list still has pairwise distinct ids,
and it is exactly the existing list with the not-already-present new
items appended. -/
theorem mergeSearchResults_nodup (existing newBooks : List AnnotatedBook)
    (h1 : (resultIds existing).Nodup) (h2 : (resultIds newBooks).Nodup) :
    (resultIds (mergeSearchResults existing newBooks)).Nodup ∧
    mergeSearchResults existing newBooks =
      existing ++ newBooks.filter fun b => !(decide (b.book.id ∈ resultIds existing)) := by
  refine ⟨?_, rfl⟩
  unfold mergeSearchResults resultIds
  rw [List.map_append, List.nodup_append]
  refine ⟨h1, ?_, ?_⟩
  · have hsub : (newBooks.filter fun b =>
        !(decide (b.book.id ∈ resultIds existing))).Sublist newBooks :=
      List.filter_sublist newBooks
    exact (h2 : (newBooks.map fun b => b.book.id).Nodup).sublist (hsub.map _)
  · intro x hx hy
    rcases List.mem_map.mp hy with ⟨b2, hb2, rfl⟩
    rcases List.mem_filter.mp hb2 with ⟨_, hkeep⟩
    rcases List.mem_map.mp hx with ⟨bx, hbx, hbxeq⟩
    have hnot : ∀ x ∈ existing, ¬ x.book.id = b2.book.id := by
      simpa using hkeep
    exact hnot bx hbx hbxeq

/-- C6 witness: merging a page `[id 1, id 0]` into an existing list
`[id 0]` keeps ids pairwise distinct and appends only the id-1 item. -/
theorem mergeSearchResults_nodup_witness :
    (resultIds (mergeSearchResults [annotatedZero]
      [⟨⟨1, [], []⟩, false, none, false⟩, annotatedZero])).Nodup :=
  (mergeSearchResults_nodup [annotatedZero]
    [⟨⟨1, [], []⟩, false, none, false⟩, annotatedZero]
    (by decide) (by decide)).1

/-! ## Similarity scorer (`calculateSimilarity`, app.js lines 1963-1979)

The JS builds `new Set(str.split(' ').filter(w => w.length > 2))`; a JS
`Set`'s size, membership, intersection and union depend only on which
elements it holds, so it is modelled as a `Finset`. -/

/-- The token set of a string: split on the space character, keep the
tokens longer than 2 characters. -/
def tokenSet (s : List Char) : Finset (List Char) :=
  ((s.splitOn ' ').filter fun w => 2 < w.length).toFinset

/-- `calculateSimilarity(str1, str2)`: 0 when either input is empty (JS
falsiness of the empty string), 1 on exact equality, else the
containment fallback 0.8 when either token set is empty
(`str1.includes(str2)` means `str2` occurs inside `str1`), else the
Jaccard ratio of the token sets. -/
def calculateSimilarity (str1 str2 : List Char) : ℚ :=
  if str1 = [] ∨ str2 = [] then 0
  else if str1 = str2 then 1
  else if tokenSet str1 = ∅ ∨ tokenSet str2 = ∅ then
    (if str2 <:+: str1 ∨ str1 <:+: str2 then Rat.divInt 8 10 else 0)
  else
    Rat.divInt ((tokenSet str1 ∩ tokenSet str2).card)
      ((tokenSet str1 ∪ tokenSet str2).card)

/-- C1 counterexample: on the pair of empty strings the scorer returns
0, not 1 — the emptiness test runs before the exact-equality test. -/
theorem calculateSimilarity_empty_pair :
    calculateSimilarity [] [] = 0 ∧ (0 : ℚ) ≠ 1 :=
  ⟨rfl, by decide⟩

/-- C1 (amended): equal nonempty strings score 1, and any pair with an
empty member scores 0 — including the equal pair of empty strings, for
which the emptiness rule wins over the equality rule. -/
theorem calculateSimilarity_exact_and_empty (a b : List Char) :
    (a ≠ [] → a = b → calculateSimilarity a b = 1) ∧
    ((a = [] ∨ b = []) → calculateSimilarity a b = 0) := by
  constructor
  · intro ha hab
    have h1 : ¬ (a = [] ∨ b = []) := by
      rintro (h | h)
      · exact ha h
      · exact ha (hab.trans h)
    unfold calculateSimilarity
    rw [if_neg h1, if_pos hab]
  · intro h
    unfold calculateSimilarity
    rw [if_pos h]

/-- C1 witness: `"abc"` scored against itself gives 1; the empty string
against `"abc"` gives 0. -/
theorem calculateSimilarity_exact_and_empty_witness :
    calculateSimilarity ['a', 'b', 'c'] ['a', 'b', 'c'] = 1 ∧
    calculateSimilarity [] ['a', 'b', 'c'] = 0 :=
  ⟨(calculateSimilarity_exact_and_empty ['a', 'b', 'c'] ['a', 'b', 'c']).1
      (by decide) rfl,
   (calculateSimilarity_exact_and_empty [] ['a', 'b', 'c']).2 (Or.inl rfl)⟩

/-- C8: the scorer is symmetric — every branch (emptiness, equality,
containment fallback, Jaccard ratio) is invariant under swapping the two
inputs. -/
theorem calculateSimilarity_comm (a b : List Char) :
    calculateSimilarity a b = calculateSimilarity b a := by
  unfold calculateSimilarity
  split_ifs <;>
    first
      | rfl
      | tauto
      | rw [Finset.inter_comm, Finset.union_comm]

/-! ## Match decider (`findLibraryMatch`, app.js lines 1934-1940)

The loop body accepts a candidate through either of two threshold
tests, written as two `if ... return book` statements:

    if (titleSimilarity > 0.85 && authorSimilarity > 0.5) return book;
    if (titleSimilarity > 0.7 && authorSimilarity > 0.7) return book;
-/

/-- The two-threshold acceptance test applied to a (title, author)
similarity pair. -/
def matchDecider (titleSimilarity authorSimilarity : ℚ) : Bool :=
  if titleSimilarity > Rat.divInt 85 100 ∧ authorSimilarity > Rat.divInt 5 10 then
    true
  else if titleSimilarity > Rat.divInt 7 10 ∧ authorSimilarity > Rat.divInt 7 10 then
    true
  else false

/-- C4: the decider accepts exactly when `titleSim > 0.85` and
`authorSim > 0.50`, or `titleSim > 0.70` and `authorSim > 0.70`. -/
theorem matchDecider_iff (t a : ℚ) :
    matchDecider t a = true ↔
      (t > 85 / 100 ∧ a > 50 / 100) ∨ (t > 70 / 100 ∧ a > 70 / 100) := by
  have e1 : (Rat.divInt 85 100 : ℚ) = 85 / 100 := by
    rw [Rat.divInt_eq_div]; norm_num
  have e2 : (Rat.divInt 5 10 : ℚ) = 50 / 100 := by
    rw [Rat.divInt_eq_div]; norm_num
  have e3 : (Rat.divInt 7 10 : ℚ) = 70 / 100 := by
    rw [Rat.divInt_eq_div]; norm_num
  unfold matchDecider
  rw [e1, e2, e3]
  split_ifs with h1 h2
  · simp only [true_iff]
    exact Or.inl h1
  · simp only [true_iff]
    exact Or.inr h2
  · simp only [Bool.false_eq_true, false_iff]
    tauto

/-! ## Normalizer (`normalizeForMatching`, app.js lines 1949-1958)

    if (!str) return '';
    let normalized = str.split(':')[0].trim();
    return normalized
        .toLowerCase()
        .replace(/[^a-z0-9\\s]/g, '')
        .replace(/\\s+/g, ' ')
        .trim();

Character classes are stated on code points (`Char.toNat`), exactly the
code-point sets the JS regexes use. -/

/-- The JS `\s` class: space, the control whitespace characters, and the
Unicode space separators recognised by JS regexes. -/
def isJsSpace (c : Char) : Bool :=
  decide (c.toNat = 32 ∨ c.toNat = 9 ∨ c.toNat = 10 ∨ c.toNat = 11 ∨
    c.toNat = 12 ∨ c.toNat = 13 ∨ c.toNat = 160 ∨ c.toNat = 5760 ∨
    (8192 ≤ c.toNat ∧ c.toNat ≤ 8202) ∨ c.toNat = 8232 ∨ c.toNat = 8233 ∨
    c.toNat = 8239 ∨ c.toNat = 8287 ∨ c.toNat = 12288 ∨ c.toNat = 65279)

/-- A character in `[a-z0-9]`. -/
def goodChar (c : Char) : Bool :=
  decide ((97 ≤ c.toNat ∧ c.toNat ≤ 122) ∨ (48 ≤ c.toNat ∧ c.toNat ≤ 57))

/-- What the regex `[^a-z0-9\s]` deletion keeps. -/
def keepChar (c : Char) : Bool :=
  goodChar c || isJsSpace c

/-- `str.split(':')[0]`: the prefix before the first colon (the whole
string when there is none). -/
def takeBeforeColon : List Char → List Char
  | [] => []
  | c :: cs => if c = ':' then [] else c :: takeBeforeColon cs

/-- The right half of JS `trim`: drop trailing whitespace. -/
def rtrim : List Char → List Char
  | [] => []
  | c :: cs =>
    match rtrim cs with
    | [] => if isJsSpace c then [] else [c]
    | d :: ds => c :: d :: ds

/-- JS `String.prototype.trim`: drop leading and trailing whitespace. -/
def trimJs (l : List Char) : List Char :=
  rtrim (l.dropWhile isJsSpace)

/-- `toLowerCase` on the code points the pipeline can still be holding
when the case fold matters: `A`-`Z` maps down by 32, everything else is
left alone (non-ASCII case pairs are all erased by the following
`[^a-z0-9\s]` deletion either way). -/
def toLowerJs (c : Char) : Char :=
  if 65 ≤ c.toNat ∧ c.toNat ≤ 90 then Char.ofNat (c.toNat + 32) else c

/-- The regex replace `/\s+/g -> ' '`: each maximal run of whitespace
becomes one space.  The flag says whether we are inside a run whose
replacement space was already emitted. -/
def collapseWsAux : Bool → List Char → List Char
  | _, [] => []
  | inRun, c :: cs =>
    if isJsSpace c then
      if inRun then collapseWsAux true cs
      else ' ' :: collapseWsAux true cs
    else c :: collapseWsAux false cs

/-- `replace(/\s+/g, ' ')` on a whole string. -/
def collapseWs (l : List Char) : List Char :=
  collapseWsAux false l

/-- `normalizeForMatching(str)`: empty in, empty out; otherwise strip the
subtitle, trim, lower-case, delete everything outside `[a-z0-9\s]`,
collapse whitespace runs, trim again. -/
def normalizeForMatching (s : List Char) : List Char :=
  if s = [] then []
  else
    trimJs (collapseWs (((trimJs (takeBeforeColon s)).map toLowerJs).filter keepChar))

/-! ### Canonical strings and idempotence of the normalizer (C7)

A normalized string is *canonical*: every character is in `[a-z0-9 ]`,
spaces are single and interior.  The normalizer maps every string onto a
canonical one and fixes canonical strings, which gives idempotence. -/

/-- Recogniser for the tail of a canonical string.  The flag says a
space is not allowed at this position (start of string, or the previous
character was the separating space); the empty tail is rejected exactly
when it would leave a trailing space. -/
def canonAux : Bool → List Char → Bool
  | afterBreak, [] => !afterBreak
  | afterBreak, c :: cs =>
    if goodChar c = true then canonAux false cs
    else if c = ' ' ∧ afterBreak = false then canonAux true cs
    else false

/-- A canonical string: empty, or words of `[a-z0-9]` characters
separated by single spaces with no leading or trailing space. -/
def canonical (l : List Char) : Bool :=
  l.isEmpty || canonAux true l

/-- Like `canonAux` but allowing the string to end in a space: the shape
`collapseWs` guarantees before the final trim. -/
def spacedAux : Bool → List Char → Bool
  | _, [] => true
  | afterSp, c :: cs =>
    if goodChar c = true then spacedAux false cs
    else if c = ' ' ∧ afterSp = false then spacedAux true cs
    else false

theorem good_not_jsSpace {c : Char} (h : goodChar c = true) :
    isJsSpace c = false := by
  simp only [goodChar, decide_eq_true_eq] at h
  simp only [isJsSpace, decide_eq_false_iff_not]
  omega

theorem canonAux_mem (l : List Char) : ∀ b : Bool, canonAux b l = true →
    ∀ x ∈ l, goodChar x = true ∨ x = ' ' := by
  induction l with
  | nil => intro b _ x hx; cases hx
  | cons c cs ih =>
    intro b h x hx
    simp only [canonAux] at h
    by_cases hg : goodChar c = true
    · rw [if_pos hg] at h
      rcases List.mem_cons.mp hx with rfl | hx2
      · exact Or.inl hg
      · exact ih false h x hx2
    · rw [if_neg hg] at h
      by_cases hsp : c = ' ' ∧ b = false
      · rw [if_pos hsp] at h
        rcases List.mem_cons.mp hx with rfl | hx2
        · exact Or.inr hsp.1
        · exact ih true h x hx2
      · rw [if_neg hsp] at h
        exact absurd h (by decide)

theorem canonAux_head_good {c : Char} {cs : List Char}
    (h : canonAux true (c :: cs) = true) : goodChar c = true := by
  simp only [canonAux] at h
  by_cases hg : goodChar c = true
  · exact hg
  · rw [if_neg hg] at h
    by_cases hsp : c = ' ' ∧ (true : Bool) = false
    · exact absurd hsp.2 (by decide)
    · rw [if_neg hsp] at h
      exact absurd h (by decide)

theorem canonAux_false_of_true {l : List Char} (h : canonAux true l = true) :
    canonAux false l = true := by
  cases l with
  | nil => exact absurd h (by decide)
  | cons c cs =>
    have hg : goodChar c = true := canonAux_head_good h
    simp only [canonAux] at h ⊢
    rw [if_pos hg] at h ⊢
    exact h

theorem takeBeforeColon_eq_self {l : List Char}
    (h : ∀ c ∈ l, goodChar c = true ∨ c = ' ') : takeBeforeColon l = l := by
  induction l with
  | nil => rfl
  | cons c cs ih =>
    have hne : ¬ c = ':' := by
      rcases h c (List.mem_cons_self c cs) with hg | rfl
      · intro heq; rw [heq] at hg; exact absurd hg (by decide)
      · decide
    simp only [takeBeforeColon]
    rw [if_neg hne, ih fun x hx => h x (List.mem_cons_of_mem c hx)]

theorem toLowerJs_fixes {c : Char} (h : goodChar c = true ∨ c = ' ') :
    toLowerJs c = c := by
  rcases h with h | rfl
  · simp only [goodChar, decide_eq_true_eq] at h
    unfold toLowerJs
    rw [if_neg (by omega)]
  · decide

theorem map_toLowerJs_eq_self {l : List Char}
    (h : ∀ c ∈ l, goodChar c = true ∨ c = ' ') : l.map toLowerJs = l := by
  induction l with
  | nil => rfl
  | cons c cs ih =>
    simp only [List.map_cons]
    rw [toLowerJs_fixes (h c (List.mem_cons_self c cs)),
      ih fun x hx => h x (List.mem_cons_of_mem c hx)]

theorem filter_keepChar_eq_self {l : List Char}
    (h : ∀ c ∈ l, goodChar c = true ∨ c = ' ') : l.filter keepChar = l := by
  apply List.filter_eq_self.mpr
  intro a ha
  rcases h a ha with hg | rfl
  · simp [keepChar, hg]
  · decide

theorem rtrim_cons (c : Char) (cs : List Char) :
    rtrim (c :: cs) = match rtrim cs with
      | [] => if isJsSpace c = true then [] else [c]
      | d :: ds => c :: d :: ds := rfl

theorem collapseWsAux_eq_self (l : List Char) : ∀ b : Bool,
    canonAux b l = true → collapseWsAux b l = l := by
  induction l with
  | nil => intro b _; rfl
  | cons c cs ih =>
    intro b h
    simp only [canonAux] at h
    by_cases hg : goodChar c = true
    · rw [if_pos hg] at h
      simp only [collapseWsAux]
      rw [if_neg (by simp [good_not_jsSpace hg]), ih false h]
    · rw [if_neg hg] at h
      by_cases hsp : c = ' ' ∧ b = false
      · rw [if_pos hsp] at h
        obtain ⟨rfl, rfl⟩ := hsp
        simp only [collapseWsAux]
        rw [if_pos (by decide), if_neg (by decide), ih true h]
      · rw [if_neg hsp] at h
        exact absurd h (by decide)

theorem rtrim_eq_self (l : List Char) : ∀ b : Bool,
    canonAux b l = true → rtrim l = l := by
  induction l with
  | nil => intro b _; rfl
  | cons c cs ih =>
    intro b h
    simp only [canonAux] at h
    by_cases hg : goodChar c = true
    · rw [if_pos hg] at h
      simp only [rtrim]
      rw [ih false h]
      cases cs with
      | nil => rw [if_neg (by simp [good_not_jsSpace hg])]
      | cons d ds => rfl
    · rw [if_neg hg] at h
      by_cases hsp : c = ' ' ∧ b = false
      · rw [if_pos hsp] at h
        obtain ⟨rfl, rfl⟩ := hsp
        cases cs with
        | nil => exact absurd h (by decide)
        | cons d ds =>
          rw [rtrim_cons, ih true h]
      · rw [if_neg hsp] at h
        exact absurd h (by decide)

/-- A canonical string is a fixed point of the whole normalizer. -/
theorem normalize_fixes_canonical {l : List Char} (h : canonical l = true) :
    normalizeForMatching l = l := by
  cases l with
  | nil => rfl
  | cons c cs =>
    have hc : canonAux true (c :: cs) = true := by
      simpa [canonical] using h
    have hmem : ∀ x ∈ c :: cs, goodChar x = true ∨ x = ' ' :=
      canonAux_mem (c :: cs) true hc
    have hgood : goodChar c = true := canonAux_head_good hc
    have h2 : List.dropWhile isJsSpace (c :: cs) = c :: cs := by
      rw [List.dropWhile_cons, if_neg (by simp [good_not_jsSpace hgood])]
    have h3 : rtrim (c :: cs) = c :: cs := rtrim_eq_self (c :: cs) true hc
    have h6 : collapseWsAux false (c :: cs) = c :: cs :=
      collapseWsAux_eq_self (c :: cs) false (canonAux_false_of_true hc)
    simp only [normalizeForMatching, trimJs, collapseWs]
    rw [if_neg (by simp), takeBeforeColon_eq_self hmem, h2, h3,
      map_toLowerJs_eq_self hmem, filter_keepChar_eq_self hmem, h6, h2, h3]

theorem spacedAux_collapseWsAux (m : List Char) : ∀ b : Bool,
    (∀ c ∈ m, keepChar c = true) → spacedAux b (collapseWsAux b m) = true := by
  induction m with
  | nil => intro b _; rfl
  | cons c cs ih =>
    intro b hmem
    have hc : keepChar c = true := hmem c (List.mem_cons_self c cs)
    have hcs : ∀ x ∈ cs, keepChar x = true :=
      fun x hx => hmem x (List.mem_cons_of_mem c hx)
    simp only [collapseWsAux]
    by_cases hsp : isJsSpace c = true
    · rw [if_pos hsp]
      cases b with
      | true => simpa using ih true hcs
      | false =>
        rw [if_neg (by decide)]
        simp only [spacedAux]
        rw [if_neg (by decide), if_pos (⟨trivial, trivial⟩ : True ∧ True)]
        exact ih true hcs
    · rw [if_neg hsp]
      have hg : goodChar c = true := by
        simp only [keepChar, Bool.or_eq_true] at hc
        rcases hc with h | h
        · exact h
        · exact absurd h hsp
      simp only [spacedAux]
      rw [if_pos hg]
      exact ih false hcs

theorem rtrim_spacedAux (m : List Char) : ∀ b : Bool, spacedAux b m = true →
    rtrim m = [] ∨ canonAux b (rtrim m) = true := by
  induction m with
  | nil => intro b _; exact Or.inl rfl
  | cons c cs ih =>
    intro b h
    simp only [spacedAux] at h
    by_cases hg : goodChar c = true
    · rw [if_pos hg] at h
      have hor := ih false h
      cases hr : rtrim cs with
      | nil =>
        right
        rw [rtrim_cons, hr]
        show canonAux b (if isJsSpace c = true then [] else [c]) = true
        rw [if_neg (by simp [good_not_jsSpace hg])]
        simp only [canonAux]
        rw [if_pos hg]
        rfl
      | cons d ds =>
        right
        have hcan : canonAux false (d :: ds) = true := by
          rcases hor with hnil | hc2
          · rw [hr] at hnil; cases hnil
          · rwa [hr] at hc2
        rw [rtrim_cons, hr]
        show canonAux b (c :: d :: ds) = true
        simp only [canonAux]
        rw [if_pos hg]
        simpa only [canonAux] using hcan
    · rw [if_neg hg] at h
      by_cases hsp : c = ' ' ∧ b = false
      · rw [if_pos hsp] at h
        obtain ⟨rfl, rfl⟩ := hsp
        have hor := ih true h
        cases hr : rtrim cs with
        | nil =>
          left
          rw [rtrim_cons, hr]
          decide
        | cons d ds =>
          right
          have hcan : canonAux true (d :: ds) = true := by
            rcases hor with hnil | hc2
            · rw [hr] at hnil; cases hnil
            · rwa [hr] at hc2
          rw [rtrim_cons, hr]
          show canonAux false (' ' :: d :: ds) = true
          simp only [canonAux]
          rw [if_neg (by decide), if_pos (⟨trivial, trivial⟩ : True ∧ True)]
          simpa only [canonAux] using hcan
      · rw [if_neg hsp] at h
        exact absurd h (by decide)

theorem canonical_trimJs_spaced {m : List Char}
    (h : spacedAux false m = true) : canonical (trimJs m) = true := by
  cases m with
  | nil => rfl
  | cons c cs =>
    simp only [spacedAux] at h
    by_cases hg : goodChar c = true
    · rw [if_pos hg] at h
      have h2 : List.dropWhile isJsSpace (c :: cs) = c :: cs := by
        rw [List.dropWhile_cons, if_neg (by simp [good_not_jsSpace hg])]
      have hs : spacedAux true (c :: cs) = true := by
        simp only [spacedAux]
        rw [if_pos hg]
        exact h
      unfold trimJs
      rw [h2]
      rcases rtrim_spacedAux (c :: cs) true hs with hnil | hcan
      · rw [hnil]; rfl
      · unfold canonical
        rw [hcan, Bool.or_true]
    · rw [if_neg hg] at h
      by_cases hsp : c = ' '
      · rw [if_pos (show c = ' ' ∧ True from ⟨hsp, trivial⟩)] at h
        subst hsp
        unfold trimJs
        rw [List.dropWhile_cons, if_pos (by decide)]
        cases cs with
        | nil => rfl
        | cons d ds =>
          simp only [spacedAux] at h
          by_cases hgd : goodChar d = true
          · rw [if_pos hgd] at h
            have h2 : List.dropWhile isJsSpace (d :: ds) = d :: ds := by
              rw [List.dropWhile_cons, if_neg (by simp [good_not_jsSpace hgd])]
            have hs : spacedAux true (d :: ds) = true := by
              simp only [spacedAux]
              rw [if_pos hgd]
              exact h
            rw [h2]
            rcases rtrim_spacedAux (d :: ds) true hs with hnil | hcan
            · rw [hnil]; rfl
            · unfold canonical
              rw [hcan, Bool.or_true]
          · rw [if_neg hgd] at h
            rw [if_neg (show ¬ (d = ' ' ∧ (true : Bool) = false) from
              fun hh => by simpa using hh.2)] at h
            exact absurd h (by decide)
      · rw [if_neg (show ¬ (c = ' ' ∧ True) from fun hh => hsp hh.1)] at h
        exact absurd h (by decide)

/-- Every normalizer output is canonical. -/
theorem normalizeForMatching_canonical (l : List Char) :
    canonical (normalizeForMatching l) = true := by
  by_cases hl : l = []
  · subst hl; rfl
  · unfold normalizeForMatching
    rw [if_neg hl]
    apply canonical_trimJs_spaced
    show spacedAux false (collapseWsAux false _) = true
    apply spacedAux_collapseWsAux
    intro c hc
    exact List.of_mem_filter hc

/-- C7: the normalizer is idempotent — normalizing an already-normalized
string leaves it unchanged. -/
theorem normalizeForMatching_idempotent (s : List Char) :
    normalizeForMatching (normalizeForMatching s) = normalizeForMatching s :=
  normalize_fixes_canonical (normalizeForMatching_canonical s)

/-! ## Reconciliation pass (`findLibraryMatch` / `matchWithLibrary`,
app.js lines 1850-1862 and 1921-1944) -/

/-- The author text the matcher derives from a local record:
`Array.isArray(book.authors) ? book.authors.join(' ') : book.authors`. -/
def AuthorsField.joined : AuthorsField → List Char
  | .list as => List.intercalate [' '] as
  | .str s => s

/-- The loop body of `findLibraryMatch` applied to one candidate:
normalize the local record's title and joined author text, score both
against the (already normalized) catalog pair, and apply the decider. -/
def libraryBookMatches (hcTitle hcAuthor : List Char) (book : LibraryBook) :
    Bool :=
  matchDecider
    (calculateSimilarity hcTitle (normalizeForMatching book.title))
    (calculateSimilarity hcAuthor (normalizeForMatching book.authors.joined))

/-- The `for (const book of this.books)` loop: return the first
accepted candidate, else `null`. -/
def findFirstMatch (hcTitle hcAuthor : List Char) :
    List LibraryBook → Option LibraryBook
  | [] => none
  | book :: rest =>
    if libraryBookMatches hcTitle hcAuthor book then some book
    else findFirstMatch hcTitle hcAuthor rest

/-- `findLibraryMatch(hardcoverBook)` (app.js lines 1921-1944): the
catalog title and author are normalized once, then the local collection
is scanned in order. -/
def findLibraryMatch (books : List LibraryBook) (hb : CatalogBook) :
    Option LibraryBook :=
  findFirstMatch (normalizeForMatching hb.title)
    (normalizeForMatching hb.author) books

theorem findFirstMatch_none_iff (t a : List Char) (books : List LibraryBook) :
    findFirstMatch t a books = none ↔
      ∀ b ∈ books, libraryBookMatches t a b = false := by
  induction books with
  | nil => simp [findFirstMatch]
  | cons c cs ih =>
    simp only [findFirstMatch]
    by_cases hm : libraryBookMatches t a c = true
    · rw [if_pos hm]
      constructor
      · intro h; cases h
      · intro h
        rw [h c (List.mem_cons_self c cs)] at hm
        cases hm
    · rw [if_neg hm, ih]
      have hmf : libraryBookMatches t a c = false := by
        revert hm; cases libraryBookMatches t a c <;> simp
      constructor
      · intro h x hx
        rcases List.mem_cons.mp hx with rfl | hx2
        · exact hmf
        · exact h x hx2
      · intro h x hx
        exact h x (List.mem_cons_of_mem c hx)

theorem findFirstMatch_some_iff (t a : List Char) (books : List LibraryBook)
    (b : LibraryBook) :
    findFirstMatch t a books = some b ↔
      ∃ pre post, books = pre ++ b :: post ∧
        libraryBookMatches t a b = true ∧
        ∀ x ∈ pre, libraryBookMatches t a x = false := by
  induction books with
  | nil =>
    constructor
    · intro h; cases h
    · rintro ⟨pre, post, habs, -, -⟩
      exact absurd habs (by simp)
  | cons c cs ih =>
    simp only [findFirstMatch]
    by_cases hm : libraryBookMatches t a c = true
    · rw [if_pos hm]
      constructor
      · intro h
        injection h with h
        subst h
        exact ⟨[], cs, rfl, hm, fun x hx => absurd hx (List.not_mem_nil x)⟩
      · rintro ⟨pre, post, heq, hb, hpre⟩
        cases pre with
        | nil =>
          simp only [List.nil_append, List.cons.injEq] at heq
          rw [heq.1]
        | cons p ps =>
          simp only [List.cons_append, List.cons.injEq] at heq
          have hpf := hpre p (List.mem_cons_self p ps)
          rw [← heq.1, hm] at hpf
          cases hpf
    · rw [if_neg hm, ih]
      have hmf : libraryBookMatches t a c = false := by
        revert hm; cases libraryBookMatches t a c <;> simp
      constructor
      · rintro ⟨pre, post, heq, hb, hpre⟩
        refine ⟨c :: pre, post, by rw [heq, List.cons_append], hb, ?_⟩
        intro x hx
        rcases List.mem_cons.mp hx with rfl | hx2
        · exact hmf
        · exact hpre x hx2
      · rintro ⟨pre, post, heq, hb, hpre⟩
        cases pre with
        | nil =>
          simp only [List.nil_append, List.cons.injEq] at heq
          rw [← heq.1] at hb
          rw [hb] at hmf
          cases hmf
        | cons p ps =>
          simp only [List.cons_append, List.cons.injEq] at heq
          exact ⟨ps, post, heq.2, hb,
            fun x hx => hpre x (List.mem_cons_of_mem p hx)⟩

/-- C2: the reconciliation scan records the first local record, in
collection order, accepted by the decider on the normalized title/author
pair, and records nothing when no record in the whole collection is
accepted. -/
theorem findLibraryMatch_first_match (books : List LibraryBook)
    (hb : CatalogBook) :
    (findLibraryMatch books hb = none ↔
      ∀ b ∈ books, libraryBookMatches (normalizeForMatching hb.title)
        (normalizeForMatching hb.author) b = false) ∧
    (∀ b : LibraryBook, findLibraryMatch books hb = some b ↔
      ∃ pre post, books = pre ++ b :: post ∧
        libraryBookMatches (normalizeForMatching hb.title)
          (normalizeForMatching hb.author) b = true ∧
        ∀ x ∈ pre, libraryBookMatches (normalizeForMatching hb.title)
          (normalizeForMatching hb.author) x = false) :=
  ⟨findFirstMatch_none_iff _ _ books,
   fun b => findFirstMatch_some_iff _ _ books b⟩

/-- A catalog item whose normalized title/author is `abc` / `xyz`. -/
def hcSample : CatalogBook := ⟨3, ['a', 'b', 'c'], ['x', 'y', 'z']⟩

/-- A local record that does not match `hcSample`. -/
def libNoMatch : LibraryBook := ⟨1, ['q'], .str ['r']⟩

/-- A local record that matches `hcSample` exactly. -/
def libMatch : LibraryBook := ⟨2, ['a', 'b', 'c'], .str ['x', 'y', 'z']⟩

/-- C2 witness: with a non-matching record first and a matching record
second, the scan returns the second record. -/
theorem findLibraryMatch_first_match_witness :
    findLibraryMatch [libNoMatch, libMatch] hcSample = some libMatch :=
  ((findLibraryMatch_first_match [libNoMatch, libMatch] hcSample).2
    libMatch).mpr ⟨[libNoMatch], [], rfl, by decide, by decide⟩

/-- `matchWithLibrary(hardcoverBooks)` (app.js lines 1850-1862): annotate
each catalog book with `inLibrary: !!libraryMatch`,
`libraryBookId: libraryMatch?.id` and
`requested: this.requestedBooks.some(r => r.id === book.id)`. -/
def matchWithLibrary (books : List LibraryBook) (requestedIds : List Nat)
    (hardcoverBooks : List CatalogBook) : List AnnotatedBook :=
  hardcoverBooks.map fun book =>
    let libraryMatch := findLibraryMatch books book
    ⟨book, libraryMatch.isSome, libraryMatch.map fun b => b.id,
      requestedIds.contains book.id⟩

/-- C5: in every annotation the reconciliation pass produces,
`libraryBookId` is present exactly when `inLibrary` is true. -/
theorem matchWithLibrary_id_iff_inLibrary (books : List LibraryBook)
    (requestedIds : List Nat) (hardcoverBooks : List CatalogBook) :
    ∀ a ∈ matchWithLibrary books requestedIds hardcoverBooks,
      a.libraryBookId.isSome = a.inLibrary := by
  intro a ha
  rcases List.mem_map.mp ha with ⟨hb, -, rfl⟩
  show ((findLibraryMatch books hb).map fun b => b.id).isSome =
    (findLibraryMatch books hb).isSome
  cases findLibraryMatch books hb <;> rfl

/-- C5 witness: the annotation of `hcSample` over a collection holding a
matching record has `inLibrary = true` and carries the matched id 2. -/
theorem matchWithLibrary_id_iff_inLibrary_witness :
    (⟨hcSample, true, some 2, false⟩ : AnnotatedBook).libraryBookId.isSome =
      (⟨hcSample, true, some 2, false⟩ : AnnotatedBook).inLibrary :=
  matchWithLibrary_id_iff_inLibrary [libNoMatch, libMatch] [] [hcSample]
    ⟨hcSample, true, some 2, false⟩ (by decide)

end Folio
